import Mathlib

/-!
Verification of the markdown segmentation / structural-integrity pipeline of
the gemini-translator tool. The definitions below are a shallow embedding of
`main.js` and `promisePool.js`: JavaScript strings become Lean `String`
(logically a list of `Char`, i.e. Unicode scalar values), regular-expression
tests become explicit character-list scanners with the same semantics, and the
stateful loops become explicit state-passing recursion. All definitions are
executable so that concrete counterexamples can be checked by `decide`.

String primitives are implemented directly on `String.data` (the `List Char`
model) rather than through position-based library routines, so that the kernel
can evaluate them on concrete inputs.
-/

namespace GeminiTranslator

/-! ## JavaScript string primitives -/

/-- The set of characters trimmed by JavaScript `String.prototype.trim` and
matched by the regex class `\s`: WhiteSpace plus LineTerminator. -/
def jsWs (c : Char) : Bool :=
  c == ' ' || c == '\t' || c == '\n' || c == '\r' || c == '\x0b' || c == '\x0c' ||
  c == '\u00A0' || c == '\u1680' ||
  ('\u2000' ≤ c && c ≤ '\u200A') ||
  c == '\u2028' || c == '\u2029' || c == '\u202F' || c == '\u205F' ||
  c == '\u3000' || c == '\uFEFF'

def trimLeftChars (l : List Char) : List Char := l.dropWhile jsWs

def trimRightChars (l : List Char) : List Char := (l.reverse.dropWhile jsWs).reverse

/-- JavaScript `s.trim()`. -/
def jsTrim (s : String) : String := ⟨trimRightChars (trimLeftChars s.data)⟩

/-- Split a character list at every occurrence of `sep` (JavaScript
`s.split(sep)` for a single-character separator). -/
def splitOnChar (sep : Char) : List Char → List (List Char)
  | [] => [[]]
  | c :: t =>
    if c == sep then [] :: splitOnChar sep t
    else
      match splitOnChar sep t with
      | [] => [[c]]
      | seg :: rest => (c :: seg) :: rest

/-- JavaScript `text.split('\n')`. -/
def jsSplitLF (s : String) : List String := (splitOnChar '\n' s.data).map String.mk

/-- Drop one trailing CR from every segment except the last one; together with
`jsSplitLF` this implements JavaScript `content.split(/\r?\n/)`. -/
def stripCR : List String → List String
  | [] => []
  | [x] => [x]
  | x :: xs =>
    (match x.data.reverse with
     | '\r' :: r => String.mk r.reverse
     | _ => x) :: stripCR xs

/-- JavaScript `content.split(/\r?\n/)`. -/
def jsSplitCRLF (s : String) : List String := stripCR (jsSplitLF s)

/-- JavaScript `s.startsWith(pat)`. -/
def strStarts (s pat : String) : Bool := pat.data.isPrefixOf s.data

/-- Substring containment, JavaScript `s.includes(pat)`. -/
def strHasSub (s pat : String) : Bool := go s.data
where
  go : List Char → Bool
    | [] => pat.data.isPrefixOf []
    | c :: t => pat.data.isPrefixOf (c :: t) || go t

/-- JavaScript `s.includes(c)` for a single character. -/
def strHasChar (s : String) (c : Char) : Bool := s.data.contains c

/-- UTF-8 byte length, JavaScript `Buffer.byteLength(s, 'utf8')`. -/
def byteLen (s : String) : Nat := s.data.foldl (fun n c => n + c.utf8Size) 0

/-- Number of leading `\s` characters, the length of the match of `/^\s*/`. -/
def leadWs (s : String) : Nat := (s.data.takeWhile jsWs).length

/-- Test for `/^\s+/`: the first character is whitespace. -/
def firstWs (s : String) : Bool :=
  match s.data with
  | c :: _ => jsWs c
  | [] => false

/-- Test for `/^\s+\S/`: some leading whitespace immediately followed by a
non-whitespace character. -/
def indentedContent (s : String) : Bool :=
  match s.data with
  | c :: _ => jsWs c && s.data.any (fun d => !jsWs d)
  | [] => false

/-- Test for `/^[-*+]\s/` at the start of a string. -/
def isBulletStart (s : String) : Bool :=
  match s.data with
  | c :: d :: _ => (c == '-' || c == '*' || c == '+') && jsWs d
  | _ => false

/-- Test for `/^\d+\.\s/` at the start of a string. -/
def isOrderedStart (s : String) : Bool :=
  let ds := s.data.takeWhile Char.isDigit
  !ds.isEmpty &&
    (match s.data.drop ds.length with
     | '.' :: d :: _ => jsWs d
     | _ => false)

/-- Nonempty and every character satisfies `p` (for anchored character-class
regexes such as `/^=+$/`). -/
def allChars (s : String) (p : Char → Bool) : Bool := !s.data.isEmpty && s.data.all p

/-- JavaScript string concatenation of a list with `'\n'` separators
(`array.join('\n')`). -/
def joinNL : List String → String
  | [] => ""
  | [x] => x
  | x :: xs => x ++ "\n" ++ joinNL xs

/-! ## Data model: translation chunks

`parseMarkdown` produces objects `{index, text}`; subtitle parsers add a
`time` field. The pipeline stage covered by claim C9 operates on the general
block shape, so that structure carries an optional `time`. -/

structure Chunk where
  index : String
  text : String
deriving DecidableEq, Repr

/-- The per-chunk byte budget `BYTES_PER_CHUNK` of `main.js`. -/
def BYTES_PER_CHUNK : Nat := 1000

/-- The retry budget `MAX_RETRY_ATTEMPTS` of `main.js`. -/
def MAX_RETRY_ATTEMPTS : Nat := 10

/-! ## Segmenter helpers (`isPartOfList`, `isPartOfHeader`,
`hasOngoingStructure`, `isAtListBoundary` of `main.js`) -/

def lineAt (lines : List String) (i : Nat) : String := lines.getD i ""

/-- Backward scan of `isPartOfList`: looks from line `i-1` down to line 0 for
a list-item line, stopping early at a non-indented line with less indentation.
The argument is `i+1` when line `i` is to be inspected next. -/
def listScanBack (lines : List String) (curIndent : Nat) : Nat → Bool
  | 0 => false
  | i + 1 =>
    let prev := lineAt lines i
    let pt := jsTrim prev
    if pt == "" then listScanBack lines curIndent i
    else if isBulletStart pt || isOrderedStart pt then true
    else
      let prevIndent := leadWs prev
      if prevIndent < curIndent && !(isBulletStart pt) && !(isOrderedStart pt) then
        if prevIndent == 0 then false
        else listScanBack lines curIndent i
      else listScanBack lines curIndent i

/-- `isPartOfList(lines, index)` from `main.js`. -/
def isPartOfList (lines : List String) (index : Nat) : Bool :=
  let line := lineAt lines index
  let t := jsTrim line
  if isBulletStart t || isOrderedStart t then true
  else if firstWs line && !(t == "") then
    listScanBack lines (leadWs line) index
  else false

/-- `isPartOfHeader(lines, index)` from `main.js`: an ATX heading line or a
line followed by a setext underline. -/
def isPartOfHeader (lines : List String) (index : Nat) : Bool :=
  let line := lineAt lines index
  if strStarts (jsTrim line) "#" then true
  else if index + 1 < lines.length then
    let nt := jsTrim (lineAt lines (index + 1))
    allChars nt (· == '=') || allChars nt (· == '-')
  else false

/-- `hasOngoingStructure(lines, index)` from `main.js`. -/
def hasOngoingStructure (lines : List String) (index : Nat) : Bool :=
  if index + 1 < lines.length then
    let nextLine := lineAt lines (index + 1)
    let t := jsTrim nextLine
    (indentedContent nextLine && !(t == "")) ||
      strHasChar t '|' ||
      allChars t (fun c => c == '-' || c == '|' || c == ':' || jsWs c)
  else false

/-- Forward scan of `isAtListBoundary` over the lines after `index`. -/
def listScanFwd : List String → Bool
  | [] => true
  | l :: rest =>
    let nt := jsTrim l
    if nt == "" then listScanFwd rest
    else if isBulletStart nt || isOrderedStart nt || strStarts nt "#" then true
    else if firstWs l && !(nt == "") then false
    else if !(firstWs l) then true
    else true

/-- `isAtListBoundary(lines, index)` from `main.js`. -/
def isAtListBoundary (lines : List String) (index : Nat) : Bool :=
  if !(isPartOfList lines index) then true
  else listScanFwd (lines.drop (index + 1))

/-! ## Segmenter (`parseMarkdown` of `main.js`)

The chunking loop of `parseMarkdown`. The JavaScript variable
`codeBlockStart` is written but never read, so it is omitted from the state. -/

def pmGo (lines : List String) : Nat → List String → String → Nat → Bool → List Chunk →
    List Chunk
  | _, [], currentChunk, chunkIndex, _, acc =>
    if jsTrim currentChunk == "" then acc
    else acc ++ [⟨toString chunkIndex, jsTrim currentChunk⟩]
  | i, line :: rest, currentChunk, chunkIndex, inCode, acc =>
    let t := jsTrim line
    let inCode1 := if strStarts t "```" then !inCode else inCode
    let testChunk := if currentChunk == "" then line else currentChunk ++ "\n" ++ line
    let shouldBreak := decide (byteLen testChunk > 500) && !(currentChunk == "")
    let breakSafe := !inCode1 && !(isPartOfList lines i) && !(isPartOfHeader lines i)
    let safeListBoundary := !(isPartOfList lines i) || isAtListBoundary lines i
    let naturalBreak :=
      (t == "" && !(jsTrim currentChunk == "")) ||
      strStarts t "# " || strStarts t "## " || strStarts t "### " ||
      strStarts t "#### " || strStarts t "##### " || strStarts t "###### "
    if shouldBreak && breakSafe && safeListBoundary &&
        (naturalBreak || !(hasOngoingStructure lines i)) then
      if jsTrim currentChunk == "" then
        pmGo lines (i + 1) rest line chunkIndex inCode1 acc
      else
        pmGo lines (i + 1) rest line (chunkIndex + 1) inCode1
          (acc ++ [⟨toString chunkIndex, jsTrim currentChunk⟩])
    else
      pmGo lines (i + 1) rest testChunk chunkIndex inCode1 acc

/-- `parseMarkdown(content)` from `main.js`: documents within the byte budget
become a single trimmed chunk; larger documents go through the line-oriented
chunking loop. -/
def parseMarkdown (content : String) : List Chunk :=
  if byteLen content > BYTES_PER_CHUNK then
    let lines := jsSplitCRLF content
    pmGo lines 0 lines "" 1 false []
  else
    [⟨"1", jsTrim content⟩]


/-! ## Structural fingerprint extractors (`extractMarkdown*` of `main.js`) -/

structure HeaderItem where
  level : Nat
  text : String
deriving DecidableEq, Repr

/-- One line of `extractMarkdownHeaders`: the trimmed line matches
`/^(#{1,6})\\s+/` iff its leading run of `#` has length 1..6 and is followed
by a whitespace character; the recorded text is the rest, trimmed again. -/
def headerOfLine (line : String) : Option HeaderItem :=
  let t := jsTrim line
  let r := (t.data.takeWhile (· == '#')).length
  if strStarts t "#" then
    if 1 ≤ r && r ≤ 6 &&
        (match t.data.drop r with
         | c :: _ => jsWs c
         | [] => false) then
      some ⟨r, jsTrim ⟨t.data.drop r⟩⟩
    else none
  else none

/-- `extractMarkdownHeaders(text)` from `main.js`. -/
def extractMarkdownHeaders (text : String) : List HeaderItem :=
  (jsSplitLF text).filterMap headerOfLine

structure ListItem where
  ltype : String
  level : Nat
  marker : String
  indent : Nat
deriving DecidableEq, Repr

/-- Nesting level from the leading-space count, as computed in
`extractMarkdownLists`. -/
def listLevelOf (lead : Nat) : Nat :=
  if lead == 0 then 1 else lead / (if lead ≥ 4 then 4 else 2) + 1

/-- One line of `extractMarkdownLists`. -/
def listItemOfLine (line : String) : Option ListItem :=
  let t := jsTrim line
  let lead := leadWs line
  if isBulletStart t then
    some ⟨"unordered", listLevelOf lead, ⟨[t.data.headD '-']⟩, lead⟩
  else if isOrderedStart t then
    some ⟨"ordered", listLevelOf lead, ⟨t.data.takeWhile Char.isDigit ++ ['.']⟩, lead⟩
  else none

/-- `extractMarkdownLists(text)` from `main.js`. -/
def extractMarkdownLists (text : String) : List ListItem :=
  (jsSplitLF text).filterMap listItemOfLine

structure CodeItem where
  ctype : String
  language : String
  content : String
  line : Nat := 0
  unclosed : Bool := false
deriving DecidableEq, Repr

/-- Find the next occurrence of `d`, returning the characters before it and
the suffix after it. -/
def findDelim (d : Char) : List Char → Option (List Char × List Char)
  | [] => none
  | c :: t =>
    if c == d then some ([], t)
    else
      match findDelim d t with
      | some (b, a) => some (c :: b, a)
      | none => none

/-- Count the matches of `/d[^d\\n]+d/g` within a single line (used with
backtick for inline code and with the dollar sign for inline math); the
fuel argument bounds the recursion and is instantiated with the line length. -/
def pairScanF (d : Char) : Nat → List Char → Nat
  | 0, _ => 0
  | _, [] => 0
  | fuel + 1, c :: rest =>
    if c == d then
      match findDelim d rest with
      | none => 0
      | some (between, after) =>
        if between.isEmpty then pairScanF d fuel rest
        else 1 + pairScanF d fuel after
    else pairScanF d fuel rest

def pairScan (d : Char) (l : List Char) : Nat := pairScanF d l.length l

/-- Open-fence state of `extractMarkdownCodeBlocks`. -/
structure OpenFence where
  language : String
  content : String
  fence : String
  startLine : Nat
deriving DecidableEq, Repr

/-- Match of `/^(```|~~~)(.*)$/` on the trimmed line, returning the fence kind
and the rest of the line. -/
def fenceMatch (t : String) : Option (String × String) :=
  if strStarts t "```" then some ("```", ⟨t.data.drop 3⟩)
  else if strStarts t "~~~" then some ("~~~", ⟨t.data.drop 3⟩)
  else none

/-- Loop body of `extractMarkdownCodeBlocks`; `lines` is the full line list
(needed by `isPartOfList`), `i` the current index, `rem` the remaining lines.
The JavaScript object fields `startLine`/`endLine` are folded into `line`. -/
def cbGo (lines : List String) : Nat → List String → Bool → Option OpenFence →
    List CodeItem → List CodeItem
  | _, [], inCode, cur, acc =>
    match inCode, cur with
    | true, some c => acc ++ [⟨"block", c.language, c.content, c.startLine, true⟩]
    | _, _ => acc
  | i, line :: rest, inCode, cur, acc =>
    let inlineAcc :=
      if !inCode then
        acc ++ List.replicate (pairScan '`' line.data) ⟨"inline", "", "", i + 1, false⟩
      else acc
    let t := jsTrim line
    match fenceMatch t with
    | some (fence, restOfLine) =>
      if !inCode then
        cbGo lines (i + 1) rest true (some ⟨jsTrim restOfLine, "", fence, i + 1⟩) inlineAcc
      else
        match cur with
        | some c =>
          if fence == c.fence then
            cbGo lines (i + 1) rest false none
              (inlineAcc ++ [⟨"block", c.language, c.content, c.startLine, false⟩])
          else
            cbGo lines (i + 1) rest inCode
              (some { c with content := c.content ++ line ++ "\n" }) inlineAcc
        | none => cbGo lines (i + 1) rest inCode cur inlineAcc
    | none =>
      match inCode, cur with
      | true, some c =>
        cbGo lines (i + 1) rest inCode
          (some { c with content := c.content ++ line ++ "\n" }) inlineAcc
      | _, _ =>
        if !inCode && strStarts line "    " && !(t == "") then
          let prevLine := if i > 0 then lineAt lines (i - 1) else ""
          if (jsTrim prevLine == "" || strStarts prevLine "    ") &&
              !(isPartOfList lines i) then
            cbGo lines (i + 1) rest inCode cur
              (inlineAcc ++ [⟨"indented", "", ⟨line.data.drop 4⟩, i + 1, false⟩])
          else cbGo lines (i + 1) rest inCode cur inlineAcc
        else cbGo lines (i + 1) rest inCode cur inlineAcc

/-- `extractMarkdownCodeBlocks(text)` from `main.js`. -/
def extractMarkdownCodeBlocks (text : String) : List CodeItem :=
  let lines := jsSplitLF text
  cbGo lines 0 lines false none []

structure LinkItem where
  ltype : String
  text : String := ""
  url : String := ""
  ref : String := ""
  title : String := ""
deriving DecidableEq, Repr

/-- Scanner for `/\\[([^\\]]*)\\]\\(([^)]+)\\)/g`: inline links. Fuel is the
text length; each step consumes at least one character. -/
def inlineLinkScan : Nat → List Char → List LinkItem
  | 0, _ => []
  | _, [] => []
  | fuel + 1, c :: rest =>
    if c == '[' then
      match findDelim ']' rest with
      | none => []
      | some (txt, r1) =>
        match r1 with
        | '(' :: r2 =>
          (match findDelim ')' r2 with
           | none => inlineLinkScan fuel rest
           | some (url, r3) =>
             if url.isEmpty then inlineLinkScan fuel rest
             else ⟨"inline", ⟨txt⟩, ⟨url⟩, "", ""⟩ :: inlineLinkScan fuel r3)
        | _ => inlineLinkScan fuel rest
    else inlineLinkScan fuel rest

/-- Scanner for `/\\[([^\\]]*)\\]\\[([^\\]]*)\\]/g`: reference-style links; an
empty reference falls back to the link text. -/
def refLinkScan : Nat → List Char → List LinkItem
  | 0, _ => []
  | _, [] => []
  | fuel + 1, c :: rest =>
    if c == '[' then
      match findDelim ']' rest with
      | none => []
      | some (txt, r1) =>
        match r1 with
        | '[' :: r2 =>
          (match findDelim ']' r2 with
           | none => refLinkScan fuel rest
           | some (rf, r3) =>
             ⟨"reference", ⟨txt⟩, "", if rf.isEmpty then ⟨txt⟩ else ⟨rf⟩, ""⟩ ::
               refLinkScan fuel r3)
        | _ => refLinkScan fuel rest
    else refLinkScan fuel rest

/-- Anchored match of `/^\\s*\\[([^\\]]+)\\]:\\s*(\\S+)(?:\\s+"([^"]*)")?/` on one
line (the `m` flag of the definition regex makes `^` a line anchor). -/
def linkDefOfLine (line : String) : Option LinkItem :=
  match line.data.dropWhile jsWs with
  | '[' :: r1 =>
    match findDelim ']' r1 with
    | some (rf, r2) =>
      if rf.isEmpty then none
      else
        match r2 with
        | ':' :: r3 =>
          let r4 := r3.dropWhile jsWs
          let url := r4.takeWhile (fun c => !jsWs c)
          if url.isEmpty then none
          else
            let r5 := r4.drop url.length
            let title :=
              if !(r5.takeWhile jsWs).isEmpty then
                match r5.dropWhile jsWs with
                | '"' :: r6 =>
                  match findDelim '"' r6 with
                  | some (ti, _) => String.mk ti
                  | none => ""
                | _ => ""
              else ""
            some ⟨"definition", "", ⟨url⟩, ⟨rf⟩, title⟩
        | _ => none
    | none => none
  | _ => none

/-- Line starts for the `m`-flagged definition regex: positions after any
LineTerminator character. -/
def splitOnLineTerminators (s : String) : List String :=
  ((((splitOnChar '\n' s.data).map (splitOnChar '\r')).flatten.map
      (splitOnChar '\u2028')).flatten.map (splitOnChar '\u2029')).flatten.map String.mk

/-- Scanner for `/<(https?:\\/\\/[^>]+)>/g`: autolinks. -/
def autoLinkScan : Nat → List Char → List LinkItem
  | 0, _ => []
  | _, [] => []
  | fuel + 1, c :: rest =>
    if c == '<' then
      let afterScheme : Option (List Char × List Char) :=
        if "https://".data.isPrefixOf rest then some ("https://".data, rest.drop 8)
        else if "http://".data.isPrefixOf rest then some ("http://".data, rest.drop 7)
        else none
      match afterScheme with
      | some (scheme, r1) =>
        (match findDelim '>' r1 with
         | some (body, r2) =>
           if body.isEmpty then autoLinkScan fuel rest
           else
             let url : String := ⟨scheme ++ body⟩
             ⟨"autolink", url, url, "", ""⟩ :: autoLinkScan fuel r2
         | none => autoLinkScan fuel rest)
      | none => autoLinkScan fuel rest
    else autoLinkScan fuel rest

/-- `extractMarkdownLinks(text)` from `main.js`: four independent scans whose
results are appended in source order (inline, reference, definition,
autolink). -/
def extractMarkdownLinks (text : String) : List LinkItem :=
  inlineLinkScan text.data.length text.data ++
  refLinkScan text.data.length text.data ++
  (splitOnLineTerminators text).filterMap linkDefOfLine ++
  autoLinkScan text.data.length text.data


/-! ## Special-syntax extractor (`extractMarkdownSpecialSyntax` of `main.js`)

Each recognized construct becomes a `SpecialItem`. The JavaScript objects use
`line` (or `startLine`/`endLine` for front matter); only `type` is ever
compared by the verifier. Here `line` records the JavaScript `line`
(respectively `startLine`) value and `endLine` is omitted. -/

structure SpecialItem where
  stype : String
  syn : String
  line : Nat
  content : String := ""
deriving DecidableEq, Repr

/-- JavaScript `\w`: ASCII letters, digits and underscore. -/
def isWordChar (c : Char) : Bool := c.isAlphanum || c == '_'

/-- ASCII lowercasing; the callout type captured by `\w+` is always ASCII, on
which JavaScript `toLowerCase()` agrees with this. -/
def lowerAscii (s : String) : String := ⟨s.data.map Char.toLower⟩

/-- Match of `/^:::\s*(\w+)(.*)$/` against a trimmed line. -/
def vuepressOf (t : String) : Option (String × String) :=
  if strStarts t ":::" then
    let r := (t.data.drop 3).dropWhile jsWs
    let w := r.takeWhile isWordChar
    if w.isEmpty then none
    else some (⟨w⟩, jsTrim ⟨r.drop w.length⟩)
  else none

/-- Match of `/^!!!\s*(\w+)(.*)$/` against a trimmed line. -/
def admonitionOf (t : String) : Option (String × String) :=
  if strStarts t "!!!" then
    let r := (t.data.drop 3).dropWhile jsWs
    let w := r.takeWhile isWordChar
    if w.isEmpty then none
    else some (⟨w⟩, jsTrim ⟨r.drop w.length⟩)
  else none

/-- Match of `/^>\s*\[!(\w+)\](.*)$/` against a trimmed line (a GitHub
callout); the captured type is lowercased. -/
def calloutOf (t : String) : Option (String × String) :=
  match t.data with
  | '>' :: r0 =>
    (match r0.dropWhile jsWs with
     | '[' :: '!' :: r2 =>
       let w := r2.takeWhile isWordChar
       if w.isEmpty then none
       else
         match r2.drop w.length with
         | ']' :: rest => some (lowerAscii ⟨w⟩, jsTrim ⟨rest⟩)
         | _ => none
     | _ => none)
  | _ => none

/-- Presence of a match of `/<!--[\s\S]*?-->/`: an occurrence of the opener
followed (disjointly) by the closer. -/
def hasHtmlComment (t : String) : Bool := go t.data
where
  go : List Char → Bool
    | [] => false
    | c :: rest =>
      if "<!--".data.isPrefixOf (c :: rest) then strHasSub ⟨rest.drop 3⟩ "-->"
      else go rest

/-- Search for the closing `---` of a front-matter block; returns the lines
strictly before it when found. -/
def fmSearch : List String → Option (List String)
  | [] => none
  | l :: rest =>
    if jsTrim l == "---" then some []
    else
      match fmSearch rest with
      | some pre => some (l :: pre)
      | none => none

/-- One iteration of the `extractMarkdownSpecialSyntax` loop: the entries
contributed by line `i` (0-based); `rest` is the list of following lines,
needed by the front-matter branch (which only fires at `i = 0`). -/
def lineSpecial (i : Nat) (line : String) (rest : List String) : List SpecialItem :=
  match vuepressOf (jsTrim line) with
  | some (w, c) => [⟨w, "vuepress-container", i + 1, c⟩]
  | none =>
  match admonitionOf (jsTrim line) with
  | some (w, c) => [⟨w, "admonition", i + 1, c⟩]
  | none =>
  match calloutOf (jsTrim line) with
  | some (w, c) => [⟨w, "github-callout", i + 1, c⟩]
  | none =>
  if i == 0 && jsTrim line == "---" then
    match fmSearch rest with
    | some pre => [⟨"yaml", "frontmatter", i + 1, joinNL pre⟩]
    | none => []
  else if jsTrim line == "$$" then [⟨"math", "math-block", i + 1, ""⟩]
  else
    List.replicate (pairScan '$' (jsTrim line).data) ⟨"math", "math-inline", i + 1, ""⟩ ++
    (if hasHtmlComment (jsTrim line) then [⟨"comment", "html-comment", i + 1, ""⟩] else []) ++
    (if strHasChar (jsTrim line) '|' && !(strStarts (jsTrim line) "```") then
      [⟨"table", "table-row", i + 1, ""⟩]
    else [])

def specialAux : Nat → List String → List SpecialItem
  | _, [] => []
  | i, l :: rest => lineSpecial i l rest ++ specialAux (i + 1) rest

/-- `extractMarkdownSpecialSyntax(text)` from `main.js`. Notably, this
function keeps no fence state: only the literal leading-backquote exclusion in
the table-row branch refers to fences at all. -/
def extractMarkdownSpecialSyntax (text : String) : List SpecialItem :=
  specialAux 0 (jsSplitLF text)

/-! ## Equivalence verifier (`checkMarkdownFormat` of `main.js`)

The pushed error strings are modelled as structured records carrying the same
data (block position `i` and element position `j` are 0-based here; the
messages print `i+1`/`j+1`). The `isDebugMode`/`inputPath` parameters only
drive console output and are omitted. -/

inductive FormatErr where
  | blockCount (o t : Nat)
  | headerCount (blk o t : Nat)
  | headerLevel (blk pos o t : Nat)
  | listCount (blk o t : Nat)
  | listType (blk pos : Nat) (o t : String)
  | listLevel (blk pos o t : Nat)
  | codeCount (blk o t : Nat)
  | codeLang (blk pos : Nat) (o t : String)
  | codeKind (blk pos : Nat) (o t : String)
  | linkCount (blk o t : Nat)
  | linkUrl (blk pos : Nat) (o t : String)
  | linkType (blk pos : Nat) (o t : String)
  | linkRef (blk pos : Nat) (o t : String)
  | specialCount (blk o t : Nat)
  | specialType (blk pos : Nat) (o t : String)
deriving DecidableEq, Repr

structure FormatCheck where
  isValid : Bool
  errors : List FormatErr
deriving DecidableEq, Repr

def headerErrs (i : Nat) (o t : String) : List FormatErr :=
  let ho := extractMarkdownHeaders o
  let ht := extractMarkdownHeaders t
  if ho.length ≠ ht.length then [.headerCount i ho.length ht.length]
  else
    ((ho.zip ht).enum.map (fun (j, a, b) =>
      if a.level ≠ b.level then [FormatErr.headerLevel i j a.level b.level] else [])).flatten

def listErrs (i : Nat) (o t : String) : List FormatErr :=
  let lo := extractMarkdownLists o
  let lt := extractMarkdownLists t
  if lo.length ≠ lt.length then [.listCount i lo.length lt.length]
  else
    ((lo.zip lt).enum.map (fun (j, a, b) =>
      (if a.ltype ≠ b.ltype then [FormatErr.listType i j a.ltype b.ltype] else []) ++
      (if a.level ≠ b.level then [FormatErr.listLevel i j a.level b.level] else []))).flatten

def codeErrs (i : Nat) (o t : String) : List FormatErr :=
  let co := extractMarkdownCodeBlocks o
  let ct := extractMarkdownCodeBlocks t
  if co.length ≠ ct.length then [.codeCount i co.length ct.length]
  else
    ((co.zip ct).enum.map (fun (j, a, b) =>
      (if a.language ≠ b.language then [FormatErr.codeLang i j a.language b.language] else []) ++
      (if a.ctype ≠ b.ctype then [FormatErr.codeKind i j a.ctype b.ctype] else []))).flatten

def linkErrs (i : Nat) (o t : String) : List FormatErr :=
  let lo := extractMarkdownLinks o
  let lt := extractMarkdownLinks t
  if lo.length ≠ lt.length then [.linkCount i lo.length lt.length]
  else
    ((lo.zip lt).enum.map (fun (j, a, b) =>
      (if !(a.url == "") && !(b.url == "") && a.url ≠ b.url then
        [FormatErr.linkUrl i j a.url b.url]
      else []) ++
      (if a.ltype ≠ b.ltype then [FormatErr.linkType i j a.ltype b.ltype] else []) ++
      (if !(a.ref == "") && !(b.ref == "") && a.ref ≠ b.ref then
        [FormatErr.linkRef i j a.ref b.ref]
      else []))).flatten

def specialErrs (i : Nat) (o t : String) : List FormatErr :=
  let so := extractMarkdownSpecialSyntax o
  let st := extractMarkdownSpecialSyntax t
  if so.length ≠ st.length then [.specialCount i so.length st.length]
  else
    ((so.zip st).enum.map (fun (j, a, b) =>
      if a.stype ≠ b.stype then [FormatErr.specialType i j a.stype b.stype] else [])).flatten

/-- The per-block-pair checks of `checkMarkdownFormat`, in push order. -/
def blockErrs (i : Nat) (o t : String) : List FormatErr :=
  headerErrs i o t ++ listErrs i o t ++ codeErrs i o t ++ linkErrs i o t ++
    specialErrs i o t

/-- `checkMarkdownFormat(originalBlocks, translatedBlocks)` from `main.js`.
A length mismatch returns immediately with a single error record; otherwise
all block pairs are compared and validity is emptiness of the error list. -/
def checkMarkdownFormat (ob tb : List Chunk) : FormatCheck :=
  if ob.length ≠ tb.length then ⟨false, [.blockCount ob.length tb.length]⟩
  else
    let errs := ((ob.zip tb).enum.map (fun (i, o, t) => blockErrs i o.text t.text)).flatten
    ⟨errs.isEmpty, errs⟩

/-! ## Reassembly (`serializeMarkdown` of `main.js`) -/

/-- The body of the `serializeMarkdown` loop, producing the `result` array
before the final `join('\n')`. -/
def smGo : List Chunk → List String
  | [] => []
  | [b] =>
    let t := jsTrim b.text
    if t == "" then [] else [t]
  | b :: b2 :: rest =>
    let t := jsTrim b.text
    if t == "" then smGo (b2 :: rest)
    else
      let nt := jsTrim b2.text
      let spacer :=
        strStarts nt "#" || strHasSub t "```" ||
        isBulletStart t || isBulletStart nt ||
        isOrderedStart t || isOrderedStart nt
      (if spacer then [t, ""] else [t]) ++ smGo (b2 :: rest)

/-- `serializeMarkdown(blocks)` from `main.js`. -/
def serializeMarkdown (blocks : List Chunk) : String := joinNL (smGo blocks)


/-! ## Retry wrapper (`withRetry` of `main.js`)

`withRetry(asyncFunction, maxAttempts)` runs numbered attempts `1..max`,
returning the first success; if every attempt throws it rethrows the last
error. The side-effecting async function is embedded as a map from attempt
number to outcome. `none` models the JavaScript behaviour for
`maxAttempts = 0` (no attempt ever runs and an undefined error is thrown). -/

def wrGo (g : Nat → Except ε σ) : Nat → Nat → Except ε σ
  | fuel, a =>
    match g a with
    | .ok x => .ok x
    | .error e =>
      match fuel with
      | 0 => .error e
      | fuel + 1 => wrGo g fuel (a + 1)

def withRetry (g : Nat → Except ε σ) (maxAttempts : Nat) : Option (Except ε σ) :=
  match maxAttempts with
  | 0 => none
  | m + 1 => some (wrGo g m 1)

/-! ## Batch-translation task (`tasks` closure inside `main`, lines 1413-1459)

One attempt of the task body: call `translateBatch` (which either throws or
returns a value), reject any non-array or any array whose length differs from
the batch length, and otherwise return the translations. The thrown
count-mismatch `Error` is modelled by `TaskErr.countMismatch`. -/

inductive TransRaw where
  | threw (msg : String)
  | nonArray
  | returned (l : List String)
deriving DecidableEq, Repr

inductive TaskErr where
  | transport (msg : String)
  | notArray (expected : Nat)
  | countMismatch (expected got : Nat)
deriving DecidableEq, Repr

/-- The validation performed on each attempt inside the `withRetry` callback
of the translation task. -/
def checkBatchOutcome (n : Nat) : TransRaw → Except TaskErr (List String)
  | .threw m => .error (.transport m)
  | .nonArray => .error (.notArray n)
  | .returned l => if l.length = n then .ok l else .error (.countMismatch n l.length)

/-- The whole translation task for a batch of `n` texts, given the raw
behaviour of `translateBatch` on each attempt: validation wrapped in
`withRetry` with the `MAX_RETRY_ATTEMPTS` budget. -/
def translationTask (raw : Nat → TransRaw) (n : Nat) : Option (Except TaskErr (List String)) :=
  withRetry (fun a => checkBatchOutcome n (raw a)) MAX_RETRY_ATTEMPTS

/-! ## Markdown repair loop (`main.js` lines 1491-1596)

The `while (!formatCheckPassed && retryCount < MAX_RETRY_ATTEMPTS)` loop.
The verifying function is a parameter (in `main.js` it is
`tb => checkMarkdownFormat(blocks, tb)`), and the retranslation of round `k`
is a parameter giving the blocks produced by that round (the scenario of
claims C2/C3 assumes the retranslations themselves succeed). Each
retranslation action is tagged with the strategy it uses; `lineProtected` is
the strategy the specification describes for escalation and exists here only
as vocabulary to state that claim. -/

inductive Strategy where
  | fullBatch
  | lineProtected
deriving DecidableEq, Repr

structure LoopOut where
  translated : List Chunk
  warnings : List FormatErr
  forced : Bool
  attempts : Nat
  actions : List Strategy
deriving DecidableEq, Repr

/-- One pass of the repair loop; `fuel` is `MAX_RETRY_ATTEMPTS - retryCount`
(the number of remaining admissible loop iterations), `rc` the current
`retryCount`, `tb` the current translated blocks, `ws` the error records
printed so far, `acts` the retranslation actions taken so far. -/
def loopGo (check : List Chunk → FormatCheck) (retr : Nat → List Chunk) (max : Nat) :
    Nat → Nat → List Chunk → List FormatErr → List Strategy → LoopOut
  | 0, rc, tb, ws, acts => ⟨tb, ws, false, rc, acts⟩
  | fuel + 1, rc, tb, ws, acts =>
    let res := check tb
    if res.isValid then ⟨tb, ws, false, rc, acts⟩
    else if rc + 1 < max then
      loopGo check retr max fuel (rc + 1) (retr (rc + 1)) (ws ++ res.errors)
        (acts ++ [.fullBatch])
    else ⟨tb, ws ++ res.errors, true, rc + 1, acts⟩

/-- The markdown format-check loop of `main`, entered with `retryCount = 0`
and the initial translation `tb0`. -/
def mdFormatLoop (check : List Chunk → FormatCheck) (retr : Nat → List Chunk)
    (tb0 : List Chunk) : LoopOut :=
  loopGo check retr MAX_RETRY_ATTEMPTS MAX_RETRY_ATTEMPTS 0 tb0 [] []

/-- The repair loop as `main.js` instantiates it: verification is
`checkMarkdownFormat` against the original blocks. -/
def mdRepairLoop (blocks : List Chunk) (retr : Nat → List Chunk)
    (tb0 : List Chunk) : LoopOut :=
  mdFormatLoop (fun tb => checkMarkdownFormat blocks tb) retr tb0

/-- After the loop, `main` unconditionally serializes whatever blocks the
loop produced and writes them to the output file; the md branch contains no
failure exit. -/
def mdBranchOutput (check : List Chunk → FormatCheck) (retr : Nat → List Chunk)
    (tb0 : List Chunk) : String :=
  serializeMarkdown (mdFormatLoop check retr tb0).translated

/-! ## Applying translation results (`main.js` lines 1478-1481)

`blocks.map((block, idx) => ({...block, text: flatTranslations[idx] || ''}))`.
Subtitle blocks carry a `time` field in addition to `index` and `text`; the
spread copies every field and only `text` is overwritten (with the empty
string when the translation array is too short — `undefined || ''`). -/

structure SubBlock where
  index : String
  time : Option String
  text : String
deriving DecidableEq, Repr

def applyTranslations : List SubBlock → List String → List SubBlock
  | [], _ => []
  | b :: bs, [] => { b with text := "" } :: applyTranslations bs []
  | b :: bs, t :: ts => { b with text := t } :: applyTranslations bs ts

/-! ## Bounded concurrency executor (`promisePool.js`)

The pool is embedded as an event-driven state machine. Starting a task
increments `nextIdx` and adds its index to `running`; the environment then
chooses which running task completes next (a "run" is the list of these
choices). A successful completion stores its result, removes the index from
`running` and calls `runNext`; a failed completion rejects the pool promise
(first settlement wins — `running` is *not* decremented on failure and
`runNext` is not called from the catch handler, exactly as in the source).
`runNext` resolves when everything is finished and then starts tasks while
`running < concurrency`. -/

/-- Decidable equality for `Except`, needed to check concrete pool outcomes. -/
instance {ε α : Type} [DecidableEq ε] [DecidableEq α] : DecidableEq (Except ε α) := fun a b =>
  match a, b with
  | .ok x, .ok y =>
    if h : x = y then .isTrue (by rw [h])
    else .isFalse (fun hc => h (Except.ok.injEq .. ▸ hc))
  | .error x, .error y =>
    if h : x = y then .isTrue (by rw [h])
    else .isFalse (fun hc => h (Except.error.injEq .. ▸ hc))
  | .ok _, .error _ => .isFalse (fun hc => Except.noConfusion hc)
  | .error _, .ok _ => .isFalse (fun hc => Except.noConfusion hc)

structure PoolSt (α ε : Type) where
  nextIdx : Nat
  running : List Nat
  results : List (Nat × α)
  settled : Option (Except ε (List (Nat × α)))
deriving Repr

/-- Settle the pool promise unless it is already settled (JavaScript promises
ignore later `resolve`/`reject` calls). -/
def settleIfNone (o : Except ε (List (Nat × α))) (s : PoolSt α ε) : PoolSt α ε :=
  if s.settled.isSome then s else { s with settled := some o }

/-- The `while (running < concurrency && i < tasks.length)` starting loop of
`runNext`; the fuel is the number of unstarted tasks. -/
def startMany (c len : Nat) : Nat → PoolSt α ε → PoolSt α ε
  | 0, s => s
  | fuel + 1, s =>
    if s.running.length < c && s.nextIdx < len then
      startMany c len fuel
        { s with nextIdx := s.nextIdx + 1, running := s.running ++ [s.nextIdx] }
    else s

/-- `runNext()`: resolve if all tasks are done, then start further tasks up
to the concurrency bound. -/
def runNext (c len : Nat) (s : PoolSt α ε) : PoolSt α ε :=
  let s1 := if s.nextIdx == len && s.running.isEmpty then settleIfNone (.ok s.results) s else s
  startMany c len (len - s1.nextIdx) s1

/-- Completion of running task `j`: the success handler stores the result,
decrements `running` and calls `runNext`; the catch handler only rejects. -/
def completeTask (f : Nat → Except ε α) (c len : Nat) (s : PoolSt α ε) (j : Nat) :
    PoolSt α ε :=
  match f j with
  | .ok a => runNext c len { s with results := s.results ++ [(j, a)], running := s.running.erase j }
  | .error e => settleIfNone (.error e) s

/-- The pool state after the initial `runNext()` call. -/
def poolInit (c len : Nat) : PoolSt α ε := runNext c len ⟨0, [], [], none⟩

/-- The pool state after a sequence of task completions. -/
def poolRun (f : Nat → Except ε α) (c len : Nat) (events : List Nat) : PoolSt α ε :=
  events.foldl (completeTask f c len) (poolInit c len)


/-! ## Concrete documents and observations used by individual claims -/

/-- A run of `n` four-byte characters, used to build compact documents that
cross the byte thresholds of `parseMarkdown`. -/
def emojiRun (n : Nat) : String := ⟨List.replicate n '🙂'⟩

/-- A markdown document whose single fenced code block is properly
terminated, sized so that the chunking loop's byte threshold is crossed
exactly at the closing fence line. -/
def c5doc : String :=
  "Intro\n```js\n" ++ joinNL (List.replicate 5 (emojiRun 26)) ++ "\n" ++
    "```\nEnd.\n\n" ++ emojiRun 120

/-- Number of fence-delimiter lines (trimmed lines starting with three
backquotes); a text whose fences are all terminated has an even count, and a
text containing an opening delimiter without its closing one has an odd
count. -/
def fenceLineCount (s : String) : Nat :=
  ((jsSplitLF s).filter (fun l => strStarts (jsTrim l) "```")).length

/-- Line `i` (0-based) lies strictly inside a fenced code block: an odd
number of fence-delimiter lines precede it and it is not itself a
delimiter. -/
def insideFenceLine (text : String) (i : Nat) : Bool :=
  let lines := jsSplitLF text
  ((lines.take i).filter (fun l => strStarts (jsTrim l) "```")).length % 2 == 1 &&
    !(strStarts (jsTrim (lineAt lines i)) "```")

/-- The branch conditions of `extractMarkdownSpecialSyntax` under which a
line contributes a table-row entry: it is not consumed by an earlier rule
(container, admonition, callout, leading front-matter delimiter, or a pure
math-block line), its trimmed text contains a pipe, and it does not start
with three backquotes. -/
def tableRowCond (i : Nat) (line : String) : Bool :=
  !(vuepressOf (jsTrim line)).isSome && !(admonitionOf (jsTrim line)).isSome &&
    !(calloutOf (jsTrim line)).isSome && !(i == 0 && jsTrim line == "---") &&
    !(jsTrim line == "$$") &&
    (strHasChar (jsTrim line) '|' && !(strStarts (jsTrim line) "```"))

/-- A completion order is admissible when every completing task is running at
the moment it completes (Boolean form, decidable on concrete runs). -/
def validRun (f : Nat → Except ε α) (c len : Nat) : List Nat → PoolSt α ε → Bool
  | [], _ => true
  | j :: es, s => decide (j ∈ s.running) && validRun f c len es (completeTask f c len s j)

/-! ## Pool invariants used by the C8 development -/

structure PoolInvCore (f : Nat → Except ε α) (c len : Nat) (s : PoolSt α ε) : Prop where
  hn : s.nextIdx ≤ len
  hrun_lt : ∀ j ∈ s.running, j < s.nextIdx
  hrun_nd : s.running.Nodup
  hres : ∀ p ∈ s.results, p.1 < s.nextIdx ∧ f p.1 = Except.ok p.2
  hkeys : (s.results.map Prod.fst).Nodup
  hdisj : ∀ j ∈ s.running, j ∉ s.results.map Prod.fst
  hcount : s.results.length + s.running.length = s.nextIdx
  hsettle : s.settled = none ∨
    (s.settled = some (.ok s.results) ∧ s.running = [] ∧ s.nextIdx = len)
  hcover : ∀ j, j < s.nextIdx → j ∈ s.running ∨ j ∈ s.results.map Prod.fst

structure PoolInv (f : Nat → Except ε α) (c len : Nat) (s : PoolSt α ε)
    extends PoolInvCore f c len s : Prop where
  hlive : s.running = [] → s.nextIdx = len → s.settled.isSome

end GeminiTranslator

namespace GeminiTranslator

/-! ## Shared lemmas -/

lemma dropWhile_dropWhile_same (p : Char → Bool) (l : List Char) :
    (l.dropWhile p).dropWhile p = l.dropWhile p := by
  induction l with
  | nil => rfl
  | cons c t ih =>
    by_cases h : p c
    · simp [List.dropWhile_cons, h, ih]
    · simp [List.dropWhile_cons, h]

lemma trimLeft_head_not_ws (l : List Char) (c : Char) (r : List Char)
    (h : trimLeftChars l = c :: r) : jsWs c = false := by
  induction l with
  | nil => simp [trimLeftChars] at h
  | cons a t ih =>
    by_cases ha : jsWs a
    · exact ih (by simpa [trimLeftChars, List.dropWhile_cons, ha] using h)
    · simp only [trimLeftChars, List.dropWhile_cons, ha] at h
      simp only [Bool.false_eq_true, if_false] at h
      obtain ⟨rfl, -⟩ := List.cons.injEq .. ▸ h
      · simpa using ha

lemma trimRight_pre (l : List Char) : trimRightChars l <+: l := by
  obtain ⟨t, ht⟩ : (l.reverse.dropWhile jsWs) <:+ l.reverse := List.dropWhile_suffix jsWs
  refine ⟨t.reverse, ?_⟩
  show trimRightChars l ++ t.reverse = l
  unfold trimRightChars
  rw [← List.reverse_append, ht, List.reverse_reverse]

lemma trimRight_trimRight (l : List Char) :
    trimRightChars (trimRightChars l) = trimRightChars l := by
  simp [trimRightChars, dropWhile_dropWhile_same]

lemma jsTrim_idem (s : String) : jsTrim (jsTrim s) = jsTrim s := by
  show (⟨trimRightChars (trimLeftChars (trimRightChars (trimLeftChars s.data)))⟩ : String)
      = ⟨trimRightChars (trimLeftChars s.data)⟩
  congr 1
  set y := trimLeftChars s.data with hy
  have h1 : trimLeftChars (trimRightChars y) = trimRightChars y := by
    cases hz : trimRightChars y with
    | nil => simp [trimLeftChars]
    | cons c r =>
      have hpre : trimRightChars y <+: y := trimRight_pre y
      rw [hz] at hpre
      obtain ⟨t, ht⟩ := hpre
      have hc : jsWs c = false := by
        apply trimLeft_head_not_ws s.data c (r ++ t)
        rw [← hy, ← ht]
        simp [List.cons_append]
      simp [trimLeftChars, List.dropWhile_cons, hc]
  rw [h1, trimRight_trimRight]

lemma parseMarkdown_small (D : String) (h : byteLen D ≤ BYTES_PER_CHUNK) :
    parseMarkdown D = [⟨"1", jsTrim D⟩] := by
  unfold parseMarkdown
  rw [if_neg (by omega)]

lemma serializeMarkdown_single (i t : String) :
    serializeMarkdown [⟨i, t⟩] = jsTrim t := by
  show joinNL (smGo [⟨i, t⟩]) = jsTrim t
  simp only [smGo]
  by_cases h : jsTrim t = ""
  · simp [h, joinNL]
  · have : (jsTrim t == "") = false := by simpa using h
    simp [this, joinNL]

/-! Claim theorems, batch 1. -/

/-- C10: a document of at most `BYTES_PER_CHUNK` UTF-8 bytes is segmented
into exactly one chunk, with index `"1"` and the trimmed document as text. -/
theorem c10_small_document_single_chunk (D : String)
    (h : byteLen D ≤ BYTES_PER_CHUNK) :
    parseMarkdown D = [⟨"1", jsTrim D⟩] :=
  parseMarkdown_small D h

theorem c10_small_document_single_chunk_witness :
    byteLen "  # Hi\n" ≤ BYTES_PER_CHUNK ∧
      parseMarkdown "  # Hi\n" = [⟨"1", "# Hi"⟩] :=
  ⟨by decide, by rw [c10_small_document_single_chunk "  # Hi\n" (by decide)]; decide⟩

/-- C1 counterexample: the round trip is not byte-exact; a trailing newline
is dropped already for a single-chunk document. -/
theorem c1_round_trip_counterexample :
    serializeMarkdown (parseMarkdown "a\n") ≠ "a\n" := by decide

/-- C1 amended: for documents within the single-chunk budget, reassembling
the segmentation returns the trimmed document, not the byte-identical one. -/
theorem c1_round_trip_amended (D : String) (h : byteLen D ≤ BYTES_PER_CHUNK) :
    serializeMarkdown (parseMarkdown D) = jsTrim D := by
  rw [parseMarkdown_small D h, serializeMarkdown_single, jsTrim_idem]

theorem c1_round_trip_amended_witness :
    byteLen " x \n" ≤ BYTES_PER_CHUNK ∧
      serializeMarkdown (parseMarkdown " x \n") = "x" :=
  ⟨by decide, by rw [c1_round_trip_amended " x \n" (by decide)]; decide⟩

/-- C4: when the original and translated chunk lists have different lengths,
the verifier reports invalid with exactly the single block-count mismatch
record, skipping all per-chunk comparisons. -/
theorem c4_verifier_length_short_circuit (ob tb : List Chunk)
    (h : ob.length ≠ tb.length) :
    checkMarkdownFormat ob tb = ⟨false, [.blockCount ob.length tb.length]⟩ ∧
      (checkMarkdownFormat ob tb).errors.length = 1 := by
  constructor
  · simp [checkMarkdownFormat, h]
  · simp [checkMarkdownFormat, h]

theorem c4_verifier_length_short_circuit_witness :
    ([⟨"1", "a"⟩, ⟨"2", "b"⟩, ⟨"3", "c"⟩] : List Chunk).length ≠
        ([⟨"1", "x"⟩, ⟨"2", "y"⟩] : List Chunk).length ∧
      checkMarkdownFormat [⟨"1", "a"⟩, ⟨"2", "b"⟩, ⟨"3", "c"⟩] [⟨"1", "x"⟩, ⟨"2", "y"⟩] =
        ⟨false, [.blockCount 3 2]⟩ :=
  ⟨by decide,
   (c4_verifier_length_short_circuit [⟨"1", "a"⟩, ⟨"2", "b"⟩, ⟨"3", "c"⟩]
     [⟨"1", "x"⟩, ⟨"2", "y"⟩] (by decide)).1⟩

/-- C9: applying translation results replaces only the `text` field of each
block; `index` and `time` are copied unchanged (and the list length is
preserved). -/
theorem c9_only_text_replaced (bs : List SubBlock) (ts : List String) :
    (applyTranslations bs ts).map SubBlock.index = bs.map SubBlock.index ∧
      (applyTranslations bs ts).map SubBlock.time = bs.map SubBlock.time ∧
      (applyTranslations bs ts).length = bs.length := by
  induction bs generalizing ts with
  | nil => simp [applyTranslations]
  | cons b bs ih =>
    cases ts with
    | nil =>
      obtain ⟨h1, h2, h3⟩ := ih []
      simp [applyTranslations, h1, h2, h3]
    | cons t ts =>
      obtain ⟨h1, h2, h3⟩ := ih ts
      simp [applyTranslations, h1, h2, h3]

end GeminiTranslator

namespace GeminiTranslator

set_option maxRecDepth 10000

/-! C5: code bug evidence. -/

/-- C5: the document `c5doc` has all its fences terminated (even number of
fence-delimiter lines), yet segmentation produces a chunk containing a
partial fenced code block (an odd number of fence-delimiter lines): the
chunking loop toggles its `inCodeBlock` flag before evaluating the break
conditions, so the line holding the closing delimiter is breakable and can
start a new chunk without its opening delimiter. -/
theorem c5_fence_break_in_chunk :
    fenceLineCount c5doc % 2 = 0 ∧
      byteLen c5doc > BYTES_PER_CHUNK ∧
      ∃ ch ∈ parseMarkdown c5doc, fenceLineCount ch.text % 2 = 1 := by decide

/-! C7 lemmas. -/

lemma wrGo_skip_errors (g : Nat → Except ε σ) (x : σ) :
    ∀ (m a fuel : Nat), (∀ k, a ≤ k → k < a + m → ∃ e, g k = .error e) →
      g (a + m) = .ok x → m ≤ fuel → wrGo g fuel a = .ok x := by
  intro m
  induction m with
  | zero =>
    intro a fuel _ hok _
    unfold wrGo
    rw [show a + 0 = a from rfl] at hok
    rw [hok]
  | succ m ih =>
    intro a fuel herr hok hm
    obtain ⟨e, he⟩ := herr a (Nat.le_refl a) (by omega)
    unfold wrGo
    rw [he]
    obtain ⟨fuel', rfl⟩ : ∃ f, fuel = f + 1 := ⟨fuel - 1, by omega⟩
    simp only []
    exact ih (a + 1) fuel' (fun k hk1 hk2 => herr k (by omega) (by omega))
      (by rw [show a + 1 + m = a + (m + 1) from by omega]; exact hok) (by omega)

/-- C7: a batch translation returning an array of the wrong length is a
retryable failure: every such attempt below the retry budget is followed by
a further attempt, and a later well-sized response makes the whole task
succeed. The mismatch never escapes as an error while budget remains. -/
theorem c7_count_mismatch_is_retried (raw : Nat → TransRaw) (n j : Nat)
    (l : List String) (hj : 1 ≤ j) (hlt : j < MAX_RETRY_ATTEMPTS)
    (hpre : ∀ k, 1 ≤ k → k ≤ j → ∃ m, raw k = .returned m ∧ m.length ≠ n)
    (hnext : raw (j + 1) = .returned l) (hlen : l.length = n) :
    translationTask raw n = some (.ok l) := by
  have hunfold : translationTask raw n =
      some (wrGo (fun a => checkBatchOutcome n (raw a)) 9 1) := rfl
  rw [hunfold]
  congr 1
  apply wrGo_skip_errors _ l j 1 9
  · intro k hk1 hk2
    obtain ⟨m, hm, hne⟩ := hpre k hk1 (by omega)
    exact ⟨.countMismatch n m.length, by simp [checkBatchOutcome, hm, hne]⟩
  · rw [show 1 + j = j + 1 from by omega]
    simp [checkBatchOutcome, hnext, hlen]
  · unfold MAX_RETRY_ATTEMPTS at hlt; omega

theorem c7_count_mismatch_is_retried_witness :
    translationTask
        (fun k => if k ≤ 1 then TransRaw.returned ["a", "b"] else TransRaw.returned ["ok"])
        1 = some (.ok ["ok"]) := by
  apply c7_count_mismatch_is_retried _ 1 1 ["ok"] (by decide) (by decide)
  · intro k h1 h2
    have : k = 1 := by omega
    subst this
    exact ⟨["a", "b"], by decide, by decide⟩
  · decide
  · decide

/-! C2 and C3: the repair loop. -/

lemma loopGo_actions_fullBatch (check : List Chunk → FormatCheck)
    (retr : Nat → List Chunk) (max : Nat) :
    ∀ (fuel rc : Nat) (tb : List Chunk) (ws : List FormatErr) (acts : List Strategy),
      (∀ a ∈ acts, a = Strategy.fullBatch) →
      ∀ a ∈ (loopGo check retr max fuel rc tb ws acts).actions, a = Strategy.fullBatch := by
  intro fuel
  induction fuel with
  | zero => intro rc tb ws acts hacts; simpa [loopGo] using hacts
  | succ fuel ih =>
    intro rc tb ws acts hacts a ha
    unfold loopGo at ha
    by_cases h1 : (check tb).isValid
    · simp only [h1, if_true] at ha
      exact hacts a ha
    · simp only [h1, Bool.false_eq_true, if_false] at ha
      by_cases h2 : rc + 1 < max
      · rw [if_pos h2] at ha
        refine ih (rc + 1) (retr (rc + 1)) (ws ++ (check tb).errors)
          (acts ++ [Strategy.fullBatch]) ?_ a ha
        intro b hb
        rcases List.mem_append.mp hb with hb | hb
        · exact hacts b hb
        · simpa using hb
      · rw [if_neg h2] at ha
        exact hacts a ha

/-- C2 amended: the repair loop never changes strategy; every retranslation
action it takes is a full-batch retranslation, at every attempt. -/
theorem c2_no_escalation_amended (check : List Chunk → FormatCheck)
    (retr : Nat → List Chunk) (tb0 : List Chunk) :
    ∀ a ∈ (mdFormatLoop check retr tb0).actions, a = Strategy.fullBatch :=
  loopGo_actions_fullBatch check retr MAX_RETRY_ATTEMPTS MAX_RETRY_ATTEMPTS 0 tb0 [] []
    (by intro a ha; simp at ha)

theorem c2_no_escalation_amended_witness :
    Strategy.fullBatch = Strategy.fullBatch :=
  c2_no_escalation_amended (fun _ => ⟨false, [.blockCount 1 2]⟩)
    (fun k => [⟨toString k, "t"⟩]) [] Strategy.fullBatch (by decide)

/-- C2 counterexample: with a verifier that always reports invalid, the
attempt taken after `batchRetryLimit = 3` failed attempts (the fourth
retranslation action) still uses the full-batch strategy, and no
line-protected action occurs during the whole run. -/
theorem c2_no_escalation_counterexample :
    ((mdFormatLoop (fun _ => ⟨false, [.blockCount 1 2]⟩)
        (fun k => [⟨toString k, "t"⟩]) []).actions.getD 3 Strategy.fullBatch ≠
      Strategy.lineProtected) ∧
      Strategy.lineProtected ∉
        (mdFormatLoop (fun _ => ⟨false, [.blockCount 1 2]⟩)
          (fun k => [⟨toString k, "t"⟩]) []).actions := by decide

lemma loopGo_always_invalid (check : List Chunk → FormatCheck)
    (retr : Nat → List Chunk) (hinv : ∀ tb, (check tb).isValid = false) :
    ∀ (fuel rc : Nat) (tb : List Chunk) (ws : List FormatErr) (acts : List Strategy),
      rc + fuel = MAX_RETRY_ATTEMPTS → 0 < fuel →
      (loopGo check retr MAX_RETRY_ATTEMPTS fuel rc tb ws acts).forced = true ∧
      (loopGo check retr MAX_RETRY_ATTEMPTS fuel rc tb ws acts).attempts =
        MAX_RETRY_ATTEMPTS ∧
      (loopGo check retr MAX_RETRY_ATTEMPTS fuel rc tb ws acts).translated =
        (if fuel = 1 then tb else retr (MAX_RETRY_ATTEMPTS - 1)) ∧
      ∃ pre, (loopGo check retr MAX_RETRY_ATTEMPTS fuel rc tb ws acts).warnings =
        pre ++ (check (if fuel = 1 then tb else retr (MAX_RETRY_ATTEMPTS - 1))).errors := by
  intro fuel
  induction fuel with
  | zero => intro rc tb ws acts hsum hpos; omega
  | succ fuel ih =>
    intro rc tb ws acts hsum hpos
    unfold loopGo
    simp only [hinv tb, Bool.false_eq_true, if_false]
    by_cases h2 : rc + 1 < MAX_RETRY_ATTEMPTS
    · rw [if_pos h2]
      have hfuel : 0 < fuel := by omega
      obtain ⟨hf, ha, ht, pre, hw⟩ :=
        ih (rc + 1) (retr (rc + 1)) (ws ++ (check tb).errors)
          (acts ++ [Strategy.fullBatch]) (by omega) hfuel
      refine ⟨hf, ha, ?_, pre, ?_⟩
      · rw [ht]
        by_cases hone : fuel = 1
        · subst hone
          have : rc + 1 = MAX_RETRY_ATTEMPTS - 1 := by
            unfold MAX_RETRY_ATTEMPTS at hsum ⊢; omega
          simp [this]
        · simp [hone, show ¬(fuel + 1 = 1) from by omega]
      · rw [hw]
        by_cases hone : fuel = 1
        · subst hone
          have : rc + 1 = MAX_RETRY_ATTEMPTS - 1 := by
            unfold MAX_RETRY_ATTEMPTS at hsum ⊢; omega
          simp [this, show ¬(1 + 1 = 1) from by omega]
        · simp [hone, show ¬(fuel + 1 = 1) from by omega]
    · rw [if_neg h2]
      have hone : fuel = 0 := by unfold MAX_RETRY_ATTEMPTS at hsum h2; omega
      subst hone
      refine ⟨rfl, by simp; omega, by simp, ws, by simp⟩

/-- C3: when verification keeps failing, after `MAX_RETRY_ATTEMPTS` total
verification attempts the loop force-accepts the last produced translation,
its warning list is a nonempty list ending with the outstanding mismatch
records of the final verification, and the pipeline still serializes and
writes that translation (the md branch has no failure exit). -/
theorem c3_force_accept_after_max_attempts (check : List Chunk → FormatCheck)
    (retr : Nat → List Chunk) (tb0 : List Chunk)
    (hinv : ∀ tb, (check tb).isValid = false)
    (hwf : ∀ tb, (check tb).errors ≠ []) :
    (mdFormatLoop check retr tb0).forced = true ∧
      (mdFormatLoop check retr tb0).attempts = MAX_RETRY_ATTEMPTS ∧
      (mdFormatLoop check retr tb0).translated = retr (MAX_RETRY_ATTEMPTS - 1) ∧
      (mdFormatLoop check retr tb0).warnings ≠ [] ∧
      (∃ pre, (mdFormatLoop check retr tb0).warnings =
        pre ++ (check (retr (MAX_RETRY_ATTEMPTS - 1))).errors) ∧
      mdBranchOutput check retr tb0 =
        serializeMarkdown (retr (MAX_RETRY_ATTEMPTS - 1)) := by
  unfold mdBranchOutput mdFormatLoop
  obtain ⟨hf, ha, ht, pre, hw⟩ :=
    loopGo_always_invalid check retr hinv MAX_RETRY_ATTEMPTS 0 tb0 [] []
      (by omega) (by unfold MAX_RETRY_ATTEMPTS; omega)
  have hten : ¬(MAX_RETRY_ATTEMPTS = 1) := by unfold MAX_RETRY_ATTEMPTS; omega
  rw [if_neg hten] at ht hw
  refine ⟨hf, ha, ht, ?_, ⟨pre, hw⟩, ?_⟩
  · rw [hw]
    intro hcontra
    exact hwf _ (List.append_eq_nil.mp hcontra).2
  · rw [ht]

theorem c3_force_accept_after_max_attempts_witness :
    (mdFormatLoop (fun _ => ⟨false, [.blockCount 1 2]⟩)
        (fun k => [⟨toString k, "t"⟩]) []).forced = true ∧
      (mdFormatLoop (fun _ => ⟨false, [.blockCount 1 2]⟩)
        (fun k => [⟨toString k, "t"⟩]) []).attempts = MAX_RETRY_ATTEMPTS ∧
      (mdFormatLoop (fun _ => ⟨false, [.blockCount 1 2]⟩)
        (fun k => [⟨toString k, "t"⟩]) []).translated =
          [⟨toString (MAX_RETRY_ATTEMPTS - 1), "t"⟩] ∧
      (mdFormatLoop (fun _ => ⟨false, [.blockCount 1 2]⟩)
        (fun k => [⟨toString k, "t"⟩]) []).warnings ≠ [] := by
  obtain ⟨h1, h2, h3, h4, -, -⟩ :=
    c3_force_accept_after_max_attempts (fun _ => ⟨false, [.blockCount 1 2]⟩)
      (fun k => [⟨toString k, "t"⟩]) [] (fun _ => rfl) (fun _ => List.cons_ne_nil _ _)
  exact ⟨h1, h2, h3, h4⟩

end GeminiTranslator

namespace GeminiTranslator

lemma lineSpecial_filter_other (i : Nat) (l : String) (rest : List String) (m : Nat)
    (hm : ¬(m = i + 1)) :
    (lineSpecial i l rest).filter (fun e => e.syn == "table-row" && e.line == m) = [] := by
  have hne : ((i + 1 : Nat) == m) = false := by
    simp only [beq_eq_false_iff_ne, ne_eq]
    intro h
    exact hm h.symm
  unfold lineSpecial
  cases hv : vuepressOf (jsTrim l) with
  | some p =>
    obtain ⟨w, c⟩ := p
    simp [hv, List.filter]
  | none =>
  cases ha : admonitionOf (jsTrim l) with
  | some p =>
    obtain ⟨w, c⟩ := p
    simp [hv, ha, List.filter]
  | none =>
  cases hc : calloutOf (jsTrim l) with
  | some p =>
    obtain ⟨w, c⟩ := p
    simp [hv, ha, hc, List.filter]
  | none =>
  simp only [hv, ha, hc]
  by_cases hfm : (i == 0 && (jsTrim l == "---")) = true
  · rw [if_pos hfm]
    cases hs : fmSearch rest with
    | some pre => simp [hs, List.filter]
    | none => simp [hs, List.filter]
  · rw [if_neg hfm]
    by_cases hmb : (jsTrim l == "$$") = true
    · rw [if_pos hmb]
      simp [List.filter]
    · rw [if_neg hmb]
      rw [List.filter_append, List.filter_append, List.filter_replicate]
      by_cases hcm : hasHtmlComment (jsTrim l) = true
      · by_cases hpipe : (strHasChar (jsTrim l) '|' && !(strStarts (jsTrim l) "```")) = true
        · simp [hcm, hpipe, hne, List.filter]
        · simp [hcm, hpipe, hne, List.filter]
      · by_cases hpipe : (strHasChar (jsTrim l) '|' && !(strStarts (jsTrim l) "```")) = true
        · simp [hcm, hpipe, hne, List.filter]
        · simp [hcm, hpipe, hne, List.filter]

lemma specialAux_filter_low :
    ∀ (ls : List String) (n m : Nat), m < n + 1 →
      (specialAux n ls).filter (fun e => e.syn == "table-row" && e.line == m) = [] := by
  intro ls
  induction ls with
  | nil => intro n m _; rfl
  | cons l rest ih =>
    intro n m hm
    show ((lineSpecial n l rest ++ specialAux (n + 1) rest).filter _) = []
    rw [List.filter_append]
    rw [lineSpecial_filter_other n l rest m (by omega)]
    rw [ih (n + 1) m (by omega)]
    rfl

lemma lineSpecial_table_count (i : Nat) (l : String) (rest : List String) :
    ((lineSpecial i l rest).filter
      (fun e => e.syn == "table-row" && e.line == i + 1)).length =
    if tableRowCond i l then 1 else 0 := by
  unfold lineSpecial tableRowCond
  cases hv : vuepressOf (jsTrim l) with
  | some p =>
    obtain ⟨w, c⟩ := p
    simp [hv, List.filter]
  | none =>
  cases ha : admonitionOf (jsTrim l) with
  | some p =>
    obtain ⟨w, c⟩ := p
    simp [hv, ha, List.filter]
  | none =>
  cases hc : calloutOf (jsTrim l) with
  | some p =>
    obtain ⟨w, c⟩ := p
    simp [hv, ha, hc, List.filter]
  | none =>
  by_cases hfm : (i == 0 && (jsTrim l == "---")) = true
  · rw [if_pos hfm]
    cases hs : fmSearch rest with
    | some pre => simp [hv, ha, hc, hfm, hs, List.filter]
    | none => simp [hv, ha, hc, hfm, hs, List.filter]
  · rw [if_neg hfm]
    by_cases hmb : (jsTrim l == "$$") = true
    · rw [if_pos hmb]
      simp [hv, ha, hc, hfm, hmb, List.filter]
    · rw [if_neg hmb]
      rw [List.filter_append, List.filter_append]
      rw [List.filter_replicate]
      simp only [hv, ha, hc, hfm, hmb, Option.isSome_none, Bool.not_false,
        Bool.true_and, Bool.not_true, Bool.false_and, Bool.and_false,
        Bool.and_true, Bool.false_or, Bool.or_false]
      by_cases hcm : hasHtmlComment (jsTrim l) = true
      · by_cases hpipe : (strHasChar (jsTrim l) '|' && !(strStarts (jsTrim l) "```")) = true
        · simp [hcm, hpipe]
        · simp [hcm, hpipe]
      · by_cases hpipe : (strHasChar (jsTrim l) '|' && !(strStarts (jsTrim l) "```")) = true
        · simp [hcm, hpipe]
        · simp [hcm, hpipe]

lemma specialAux_table_count :
    ∀ (ls : List String) (n j : Nat), j < ls.length →
      ((specialAux n ls).filter
        (fun e => e.syn == "table-row" && e.line == n + j + 1)).length =
      if tableRowCond (n + j) (lineAt ls j) then 1 else 0 := by
  intro ls
  induction ls with
  | nil => intro n j h; simp at h
  | cons l rest ih =>
    intro n j hj
    show ((lineSpecial n l rest ++ specialAux (n + 1) rest).filter _).length = _
    rw [List.filter_append, List.length_append]
    cases j with
    | zero =>
      rw [show n + 0 + 1 = n + 1 from by omega] at *
      rw [specialAux_filter_low rest (n + 1) (n + 1) (by omega)]
      simp only [List.length_nil, Nat.add_zero]
      have hmain := lineSpecial_table_count n l rest
      simpa using hmain
    | succ j' =>
      rw [lineSpecial_filter_other n l rest (n + (j' + 1) + 1) (by omega)]
      simp only [List.length_nil, Nat.zero_add]
      have := ih (n + 1) j' (by simpa using hj)
      rw [show n + 1 + j' + 1 = n + (j' + 1) + 1 from by omega] at this
      rw [show n + 1 + j' = n + (j' + 1) from by omega] at this
      exact this

/-- C6 amended: the fingerprint contains exactly one table-row entry for a
line iff its trimmed text contains a pipe, does not start with three
backquotes, and the line is not consumed by an earlier special-syntax rule —
regardless of whether the line lies inside a fenced code block (the extractor
keeps no fence state). -/
theorem c6_table_row_amended (text : String) (i : Nat)
    (h : i < (jsSplitLF text).length) :
    ((extractMarkdownSpecialSyntax text).filter
      (fun e => e.syn == "table-row" && e.line == i + 1)).length =
    if tableRowCond i (lineAt (jsSplitLF text) i) then 1 else 0 := by
  have := specialAux_table_count (jsSplitLF text) 0 i h
  simpa using this

theorem c6_table_row_amended_witness :
    0 < (jsSplitLF "a | b").length ∧
      ((extractMarkdownSpecialSyntax "a | b").filter
        (fun e => e.syn == "table-row" && e.line == 0 + 1)).length =
      if tableRowCond 0 (lineAt (jsSplitLF "a | b") 0) then 1 else 0 :=
  ⟨by decide, c6_table_row_amended "a | b" 0 (by decide)⟩

/-- C6 counterexample: a pipe-containing line strictly inside a terminated
fenced code block still receives a table-row entry, contradicting the claim
that such lines receive none. -/
theorem c6_table_row_counterexample :
    insideFenceLine "```\n|x|\n```" 1 = true ∧
      ((extractMarkdownSpecialSyntax "```\n|x|\n```").filter
        (fun e => e.syn == "table-row" && e.line == 2)).length = 1 := by decide

end GeminiTranslator

namespace GeminiTranslator

lemma startMany_results_eq (c len : Nat) :
    ∀ (fuel : Nat) (s : PoolSt α ε), (startMany c len fuel s).results = s.results := by
  intro fuel
  induction fuel with
  | zero => intro s; rfl
  | succ fuel ih =>
    intro s
    unfold startMany
    split
    · rw [ih]
    · rfl

lemma startMany_settled_eq (c len : Nat) :
    ∀ (fuel : Nat) (s : PoolSt α ε), (startMany c len fuel s).settled = s.settled := by
  intro fuel
  induction fuel with
  | zero => intro s; rfl
  | succ fuel ih =>
    intro s
    unfold startMany
    split
    · rw [ih]
    · rfl

lemma startMany_running_grows (c len : Nat) :
    ∀ (fuel : Nat) (s : PoolSt α ε), s.running <+: (startMany c len fuel s).running := by
  intro fuel
  induction fuel with
  | zero => intro s; exact List.prefix_refl _
  | succ fuel ih =>
    intro s
    unfold startMany
    split
    · exact List.IsPrefix.trans ⟨[s.nextIdx], rfl⟩
        (ih { s with nextIdx := s.nextIdx + 1, running := s.running ++ [s.nextIdx] })
    · exact List.prefix_refl _

lemma startMany_starts (c len : Nat) (hc : 0 < c) :
    ∀ (fuel : Nat) (s : PoolSt α ε), 0 < fuel → s.running = [] → s.nextIdx < len →
      (startMany c len fuel s).running ≠ [] := by
  intro fuel
  cases fuel with
  | zero => intro s h; omega
  | succ fuel =>
    intro s _ hrun hidx
    unfold startMany
    rw [if_pos (by simp [hrun, hc, hidx])]
    intro hcontra
    have hpre := startMany_running_grows c len fuel
      { s with nextIdx := s.nextIdx + 1, running := s.running ++ [s.nextIdx] }
    rw [hcontra] at hpre
    simp [hrun] at hpre

lemma startMany_core (c len : Nat) (f : Nat → Except ε α) :
    ∀ (fuel : Nat) (s : PoolSt α ε), PoolInvCore f c len s →
      PoolInvCore f c len (startMany c len fuel s) := by
  intro fuel
  induction fuel with
  | zero => intro s h; exact h
  | succ fuel ih =>
    intro s h
    unfold startMany
    split
    · rename_i hcond
      simp only [Bool.and_eq_true, decide_eq_true_eq] at hcond
      apply ih
      refine ⟨?_, ?_, ?_, ?_, ?_, ?_, ?_, ?_, ?_⟩ <;> try dsimp only
      · omega
      · intro j hj
        simp only [List.mem_append, List.mem_singleton] at hj
        rcases hj with hj | rfl
        · have := h.hrun_lt j hj
          omega
        · omega
      · refine List.Nodup.append h.hrun_nd (List.nodup_singleton _) ?_
        intro a ha hb
        simp only [List.mem_singleton] at hb
        subst hb
        exact absurd (h.hrun_lt _ ha) (by omega)
      · intro p hp
        have := h.hres p hp
        exact ⟨by omega, this.2⟩
      · exact h.hkeys
      · intro j hj
        simp only [List.mem_append, List.mem_singleton] at hj
        rcases hj with hj | rfl
        · exact h.hdisj j hj
        · intro hmem
          obtain ⟨p, hp, hfst⟩ := List.mem_map.mp hmem
          have := (h.hres p hp).1
          omega
      · simp only [List.length_append, List.length_singleton]
        have := h.hcount
        omega
      · rcases h.hsettle with hs | ⟨hs, hrun, hidx⟩
        · exact Or.inl hs
        · exact absurd hidx (by omega)
      · intro j hj
        simp only [List.mem_append, List.mem_singleton]
        by_cases hje : j = s.nextIdx
        · exact Or.inl (Or.inr hje)
        · rcases h.hcover j (by omega) with hc2 | hc2
          · exact Or.inl (Or.inl hc2)
          · exact Or.inr hc2
    · exact h

end GeminiTranslator

namespace GeminiTranslator

lemma settleIfNone_of_none (o : Except ε (List (Nat × α))) (s : PoolSt α ε)
    (h : s.settled = none) : settleIfNone o s = { s with settled := some o } := by
  unfold settleIfNone
  rw [h]
  rfl

lemma runNext_results_eq (c len : Nat) (s : PoolSt α ε) :
    (runNext c len s).results = s.results := by
  unfold runNext
  rw [startMany_results_eq]
  split
  · unfold settleIfNone
    split <;> rfl
  · rfl

lemma runNext_core (c len : Nat) (f : Nat → Except ε α) (s : PoolSt α ε)
    (h : PoolInvCore f c len s) : PoolInvCore f c len (runNext c len s) := by
  unfold runNext
  apply startMany_core
  split
  · rename_i hcond
    simp only [Bool.and_eq_true, beq_iff_eq, List.isEmpty_iff] at hcond
    unfold settleIfNone
    split
    · exact h
    · rename_i hnone
      simp only [Option.isSome_iff_exists, not_exists] at hnone
      refine ⟨h.hn, h.hrun_lt, h.hrun_nd, h.hres, h.hkeys, h.hdisj, h.hcount, ?_, h.hcover⟩
      exact Or.inr ⟨rfl, hcond.2, hcond.1⟩
  · exact h

lemma runNext_live (c len : Nat) (f : Nat → Except ε α) (hc : 0 < c) (s : PoolSt α ε)
    (h : PoolInvCore f c len s) : PoolInv f c len (runNext c len s) := by
  refine ⟨runNext_core c len f s h, ?_⟩
  intro hrun hidx
  by_cases hset : s.settled.isSome
  · unfold runNext
    rw [startMany_settled_eq]
    split
    · unfold settleIfNone
      split <;> first | exact hset | rfl
    · exact hset
  · by_cases hcond : (s.nextIdx == len && s.running.isEmpty) = true
    · unfold runNext
      rw [startMany_settled_eq, if_pos hcond]
      unfold settleIfNone
      split <;> first | assumption | rfl
    · exfalso
      have hs1 : runNext c len s = startMany c len (len - s.nextIdx) s := by
        unfold runNext
        rw [if_neg hcond]
      simp only [Bool.and_eq_true, beq_iff_eq, List.isEmpty_iff, not_and] at hcond
      have hrunpre := startMany_running_grows c len (len - s.nextIdx) s
      rw [← hs1, hrun] at hrunpre
      have hrunnil : s.running = [] := List.prefix_nil.mp hrunpre
      have hne : s.nextIdx ≠ len := fun h2 => hcond h2 hrunnil
      have hlt : s.nextIdx < len := by
        have := h.hn
        omega
      exact startMany_starts c len hc (len - s.nextIdx) s (by omega) hrunnil hlt
        (by rw [← hs1, hrun])

lemma completeTask_ok (c len : Nat) (f : Nat → Except ε α) (hc : 0 < c)
    (s : PoolSt α ε) (j : Nat) (a : α) (h : PoolInvCore f c len s)
    (hj : j ∈ s.running) (ha : f j = .ok a) :
    PoolInv f c len (completeTask f c len s j) ∧
      (completeTask f c len s j).results.length = s.results.length + 1 := by
  unfold completeTask
  rw [ha]
  constructor
  · apply runNext_live c len f hc
    refine ⟨h.hn, ?_, h.hrun_nd.erase j, ?_, ?_, ?_, ?_, ?_, ?_⟩ <;> try dsimp only
    · intro k hk
      exact h.hrun_lt k (List.mem_of_mem_erase hk)
    · intro p hp
      rcases List.mem_append.mp hp with hp | hp
      · exact h.hres p hp
      · simp only [List.mem_singleton] at hp
        subst hp
        exact ⟨h.hrun_lt j hj, ha⟩
    · rw [List.map_append]
      refine List.Nodup.append h.hkeys (List.nodup_singleton _) ?_
      intro x hx hx2
      simp only [List.map_cons, List.map_nil, List.mem_singleton] at hx2
      subst hx2
      exact h.hdisj _ hj hx
    · intro k hk
      have hk2 := (List.Nodup.mem_erase_iff h.hrun_nd).mp hk
      rw [List.map_append]
      simp only [List.mem_append, List.map_cons, List.map_nil, List.mem_singleton]
      push_neg
      exact ⟨h.hdisj k hk2.2, hk2.1⟩
    · rw [List.length_append, List.length_erase_of_mem hj]
      have h1 := h.hcount
      have h2 : 0 < s.running.length := List.length_pos_of_mem hj
      simp only [List.length_singleton]
      omega
    · rcases h.hsettle with hs | ⟨-, hrun, -⟩
      · exact Or.inl hs
      · rw [hrun] at hj
        exact absurd hj (List.not_mem_nil j)
    · intro k hk
      rw [List.map_append]
      simp only [List.mem_append, List.map_cons, List.map_nil, List.mem_singleton]
      by_cases hkj : k = j
      · exact Or.inr (Or.inr hkj)
      · rcases h.hcover k hk with hc2 | hc2
        · exact Or.inl ((List.Nodup.mem_erase_iff h.hrun_nd).mpr ⟨hkj, hc2⟩)
        · exact Or.inr (Or.inl hc2)
  · rw [runNext_results_eq]
    simp

lemma completeTask_settled_stable (c len : Nat) (f : Nat → Except ε α)
    (s : PoolSt α ε) (j : Nat) (o : Except ε (List (Nat × α)))
    (h : s.settled = some o) : (completeTask f c len s j).settled = some o := by
  cases hfj : f j with
  | ok a =>
    have hred : completeTask f c len s j =
        runNext c len
          { s with results := s.results ++ [(j, a)], running := s.running.erase j } := by
      unfold completeTask
      rw [hfj]
    rw [hred]
    unfold runNext
    rw [startMany_settled_eq]
    split
    · unfold settleIfNone
      split
      · exact h
      · rename_i hcontra
        exfalso
        apply hcontra
        simp [h]
    · exact h
  | error e =>
    have hred : completeTask f c len s j = settleIfNone (.error e) s := by
      unfold completeTask
      rw [hfj]
    rw [hred]
    unfold settleIfNone
    split
    · exact h
    · rename_i hcontra
      exfalso
      apply hcontra
      simp [h]

lemma foldl_settled_stable (c len : Nat) (f : Nat → Except ε α)
    (o : Except ε (List (Nat × α))) :
    ∀ (events : List Nat) (s : PoolSt α ε), s.settled = some o →
      (events.foldl (completeTask f c len) s).settled = some o := by
  intro events
  induction events with
  | nil => intro s h; exact h
  | cons j es ih =>
    intro s h
    exact ih _ (completeTask_settled_stable c len f s j o h)

end GeminiTranslator

namespace GeminiTranslator

lemma lookup_eq_of_mem {α : Type} (l : List (Nat × α)) (j : Nat) (a : α)
    (hnd : (l.map Prod.fst).Nodup) (h : (j, a) ∈ l) : l.lookup j = some a := by
  induction l with
  | nil => simp at h
  | cons p t ih =>
    obtain ⟨k, b⟩ := p
    simp only [List.map_cons, List.nodup_cons] at hnd
    rcases List.mem_cons.mp h with h1 | h1
    · obtain ⟨rfl, rfl⟩ := Prod.mk.injEq .. ▸ h1
      · simp [List.lookup]
    · have hne : j ≠ k := by
        rintro rfl
        exact hnd.1 (List.mem_map.mpr ⟨(j, a), h1, rfl⟩)
      have : (j == k) = false := beq_eq_false_iff_ne.mpr hne
      simp [List.lookup, this, ih hnd.2 h1]

lemma pool_fold_ok (f : Nat → Except ε α) (c len : Nat) (hc : 0 < c)
    (hok : ∀ k, k < len → ∃ a, f k = .ok a) :
    ∀ (events : List Nat) (s : PoolSt α ε), PoolInv f c len s →
      validRun f c len events s = true →
      PoolInv f c len (events.foldl (completeTask f c len) s) ∧
        (events.foldl (completeTask f c len) s).results.length =
          s.results.length + events.length := by
  intro events
  induction events with
  | nil => intro s hinv _; exact ⟨hinv, by simp⟩
  | cons j es ih =>
    intro s hinv hval
    simp only [validRun, Bool.and_eq_true, decide_eq_true_eq] at hval
    obtain ⟨hj, hrest⟩ := hval
    have hjlt : j < len := by
      have := hinv.hrun_lt j hj
      have := hinv.hn
      omega
    obtain ⟨a, ha⟩ := hok j hjlt
    obtain ⟨hinv2, hlen2⟩ :=
      completeTask_ok c len f hc s j a hinv.toPoolInvCore hj ha
    obtain ⟨hinv3, hlen3⟩ := ih (completeTask f c len s j) hinv2 hrest
    refine ⟨hinv3, ?_⟩
    simp only [List.length_cons, List.foldl_cons]
    omega

lemma pool_fold_inv_mem (f : Nat → Except ε α) (c len : Nat) (hc : 0 < c) :
    ∀ (events : List Nat) (s : PoolSt α ε), PoolInv f c len s →
      validRun f c len events s = true →
      (∀ k ∈ events, ∃ a, f k = .ok a) →
      PoolInv f c len (events.foldl (completeTask f c len) s) := by
  intro events
  induction events with
  | nil => intro s hinv _ _; exact hinv
  | cons j es ih =>
    intro s hinv hval hmem
    simp only [validRun, Bool.and_eq_true, decide_eq_true_eq] at hval
    obtain ⟨hj, hrest⟩ := hval
    obtain ⟨a, ha⟩ := hmem j (List.mem_cons_self j es)
    obtain ⟨hinv2, -⟩ := completeTask_ok c len f hc s j a hinv.toPoolInvCore hj ha
    exact ih (completeTask f c len s j) hinv2 hrest
      (fun k hk => hmem k (List.mem_cons_of_mem j hk))

lemma validRun_append (f : Nat → Except ε α) (c len : Nat) :
    ∀ (es1 es2 : List Nat) (s : PoolSt α ε),
      validRun f c len (es1 ++ es2) s =
        (validRun f c len es1 s &&
          validRun f c len es2 (es1.foldl (completeTask f c len) s)) := by
  intro es1
  induction es1 with
  | nil => intro es2 s; simp [validRun]
  | cons j es ih =>
    intro es2 s
    show validRun f c len (j :: (es ++ es2)) s = _
    simp only [validRun, List.foldl_cons]
    rw [ih es2 (completeTask f c len s j), Bool.and_assoc]

lemma poolInit_inv (f : Nat → Except ε α) (c len : Nat) (hc : 0 < c) :
    PoolInv f c len (poolInit c len) := by
  apply runNext_live c len f hc
  exact ⟨by simp, by simp, List.nodup_nil, by simp, by simp, by simp, by simp,
    Or.inl rfl, by simp⟩

lemma poolInit_results (c len : Nat) : (poolInit (α := α) (ε := ε) c len).results = [] := by
  unfold poolInit
  rw [runNext_results_eq]

/-- C8 amended: with a positive concurrency bound and an admissible completion
order, (a) if every task succeeds and every task completes, the pool resolves
with a result list assigning to each input index the result of that task,
regardless of the completion order; (b) upon the first task failure the pool
rejects with that task's error (tasks already running continue, and — contrary
to the original claim — their completions may still schedule further tasks,
whose results are discarded). -/
theorem c8_pool_ordering_and_rejection (f : Nat → Except ε α) (c len : Nat)
    (hc : 0 < c) (events : List Nat)
    (hval : validRun f c len events (poolInit c len) = true) :
    (events.length = len → (∀ k, k < len → ∃ a, f k = .ok a) →
      ∃ res, (poolRun f c len events).settled = some (.ok res) ∧
        ∀ j, j < len → ∃ a, f j = .ok a ∧ res.lookup j = some a) ∧
    (∀ (pre : List Nat) (j : Nat) (post : List Nat) (e : ε),
      events = pre ++ j :: post → (∀ k ∈ pre, ∃ a, f k = .ok a) →
      f j = .error e →
      (poolRun f c len events).settled = some (.error e)) := by
  constructor
  · intro hlen hok
    obtain ⟨hinv, hcnt⟩ :=
      pool_fold_ok f c len hc hok events (poolInit c len) (poolInit_inv f c len hc) hval
    rw [poolInit_results] at hcnt
    simp only [List.length_nil, Nat.zero_add] at hcnt
    set F := events.foldl (completeTask f c len) (poolInit c len) with hF
    have hn := hinv.hn
    have hcount := hinv.hcount
    have hrun : F.running = [] := by
      have : F.running.length = 0 := by omega
      exact List.length_eq_zero.mp this
    have hidx : F.nextIdx = len := by omega
    have hsome := hinv.hlive hrun hidx
    rcases hinv.hsettle with hs | ⟨hs, -, -⟩
    · rw [hs] at hsome; simp at hsome
    · refine ⟨F.results, hs, ?_⟩
      intro j hj
      rcases hinv.hcover j (by omega) with hmem | hmem
      · rw [hrun] at hmem
        exact absurd hmem (List.not_mem_nil j)
      · obtain ⟨p, hp, hfst⟩ := List.mem_map.mp hmem
        refine ⟨p.2, ?_, ?_⟩
        · rw [← hfst]
          exact (hinv.hres p hp).2
        · rw [← hfst]
          refine lookup_eq_of_mem F.results p.1 p.2 hinv.hkeys ?_
          rw [Prod.mk.eta]
          exact hp
  · intro pre j post e hev hpre hej
    subst hev
    unfold poolRun
    rw [List.foldl_append]
    rw [validRun_append] at hval
    simp only [Bool.and_eq_true] at hval
    obtain ⟨hval1, hval2⟩ := hval
    set s1 := pre.foldl (completeTask f c len) (poolInit c len) with hs1
    have hinv1 : PoolInv f c len s1 :=
      pool_fold_inv_mem f c len hc pre (poolInit c len) (poolInit_inv f c len hc)
        hval1 hpre
    simp only [validRun, Bool.and_eq_true, decide_eq_true_eq] at hval2
    obtain ⟨hj, hval3⟩ := hval2
    have hnone : s1.settled = none := by
      rcases hinv1.hsettle with hs | ⟨-, hrun, -⟩
      · exact hs
      · rw [hrun] at hj
        exact absurd hj (List.not_mem_nil j)
    have hstep : (completeTask f c len s1 j).settled = some (.error e) := by
      have hred : completeTask f c len s1 j = settleIfNone (.error e) s1 := by
        unfold completeTask
        rw [hej]
      rw [hred, settleIfNone_of_none _ _ hnone]
    rw [List.foldl_cons]
    exact foldl_settled_stable c len f (.error e) post (completeTask f c len s1 j) hstep

theorem c8_pool_ordering_and_rejection_witness :
    ∃ res,
      (poolRun (fun j => (Except.ok j : Except String Nat)) 2 3 [0, 1, 2]).settled =
        some (.ok res) ∧
      ∀ j, j < 3 → ∃ a, (fun j => (Except.ok j : Except String Nat)) j = .ok a ∧
        res.lookup j = some a :=
  (c8_pool_ordering_and_rejection (fun j => (Except.ok j : Except String Nat)) 2 3
      (by decide) [0, 1, 2] (by decide)).1 rfl (fun k _ => ⟨k, rfl⟩)

/-- C8 counterexample: with three tasks at concurrency two, task 0 failing
and task 1 succeeding, the pool is already rejected after task 0 completes
(two tasks started), yet the completion of the already-running task 1 starts
task 2 — further tasks are scheduled after the failure, contradicting the
claim that no further tasks are scheduled. -/
theorem c8_counterexample :
    (poolRun (fun j => if j == 0 then .error "boom" else (Except.ok j :
        Except String Nat)) 2 3 [0]).settled = some (.error "boom") ∧
    (poolRun (fun j => if j == 0 then .error "boom" else (Except.ok j :
        Except String Nat)) 2 3 [0]).nextIdx = 2 ∧
    (poolRun (fun j => if j == 0 then .error "boom" else (Except.ok j :
        Except String Nat)) 2 3 [0, 1]).nextIdx = 3 ∧
    validRun (fun j => if j == 0 then .error "boom" else (Except.ok j :
        Except String Nat)) 2 3 [0, 1] (poolInit 2 3) = true := by decide

end GeminiTranslator
